import Mathlib

/-!
# TypeNeon typing web-app: verification of the scoring, heatmap and game logic

Shallow embedding of the logic of `src/App.tsx`, `src/components/RainGame.tsx`
and `src/services/geminiService.ts`.  JavaScript numbers are modelled as
rationals (`ℚ`), `Math.round` as floor of `x + 1/2` (JS rounds halves toward
positive infinity), and the falsiness of `0`, `''` and `undefined` is made
explicit where the source relies on it.
-/

/-- `TypingSessionStats` record from `src/types.ts`. -/
structure TypingSessionStats where
  wpm : ℤ
  accuracy : ℤ
  timeElapsed : ℚ
  mistakes : ℕ
  charsTyped : ℕ
  deriving Repr, DecidableEq

/-- JavaScript `Math.round`: rounds half toward positive infinity. -/
def jsRound (q : ℚ) : ℤ := ⌊q + 1 / 2⌋

/-- JavaScript `startTime || Date.now()` from `currentStats` in `src/App.tsx`:
`null` and the (falsy) number `0` are both replaced by `now`. -/
def startOr (startTime : Option ℚ) (now : ℚ) : ℚ :=
  match startTime with
  | none => now
  | some t => if t = 0 then now else t

/-- The reduce in `currentStats` (`src/App.tsx`), accumulating over the typed
characters with their index: `char !== text[idx]` counts one error.  When
`idx` is past the end of `text`, `text[idx]` is `undefined` and the typed
character always differs from it. -/
def countErrorsAux (text : List Char) : List Char → ℕ → ℕ
  | [], _ => 0
  | c :: rest, idx =>
      (if text.get? idx = some c then 0 else 1) + countErrorsAux text rest (idx + 1)

/-- `userInput.split('').reduce((acc, char, idx) => char !== text[idx] ? acc + 1 : acc, 0)`. -/
def countErrors (text typed : List Char) : ℕ := countErrorsAux text typed 0

/-- The spec's description of the mistake count: the number of indices
`i < charsTyped` at which the typed character differs from the reference
character (written from the spec, to be compared with `countErrors`). -/
def mistakesSpec (text typed : List Char) : ℕ :=
  ((Finset.range typed.length).filter fun i => typed.get? i ≠ text.get? i).card

/-- `currentStats` from `src/App.tsx` (lines 33–51).  `now` is the value
`Date.now()` returns while the memo is evaluated; the `isFinished` flag is
taken but — as in the source, where both branches of the conditional compute
the same expression — never changes the result. -/
def currentStats (text typed : List Char) (startTime : Option ℚ)
    (_isFinished : Bool) (now : ℚ) : TypingSessionStats :=
  let charsTyped := typed.length
  let errors := countErrors text typed
  let minutes := max ((now - startOr startTime now) / 60000) (1 / 1000)
  let wpm := jsRound (((charsTyped : ℚ) / 5) / minutes)
  let accuracy :=
    if 0 < charsTyped then
      jsRound ((((charsTyped : ℚ) - (errors : ℚ)) / (charsTyped : ℚ)) * 100)
    else 100
  { wpm := wpm, accuracy := accuracy, timeElapsed := minutes * 60,
    mistakes := errors, charsTyped := charsTyped }

lemma countErrorsAux_eq (text : List Char) :
    ∀ (typed : List Char) (idx : ℕ),
      countErrorsAux text typed idx =
        ∑ i ∈ Finset.range typed.length,
          if typed.get? i ≠ text.get? (idx + i) then 1 else 0 := by
  intro typed
  induction typed with
  | nil => intro idx; simp [countErrorsAux]
  | cons c rest ih =>
      intro idx
      rw [countErrorsAux, ih (idx + 1), List.length_cons, Finset.sum_range_succ']
      have hsum : (∑ i ∈ Finset.range rest.length,
            if (c :: rest).get? (i + 1) ≠ text.get? (idx + (i + 1)) then 1 else 0) =
          ∑ i ∈ Finset.range rest.length,
            if rest.get? i ≠ text.get? (idx + 1 + i) then 1 else 0 := by
        refine Finset.sum_congr rfl fun i _ => ?_
        have h1 : idx + (i + 1) = idx + 1 + i := by omega
        rw [h1, List.get?_cons_succ]
      rw [hsum]
      simp only [List.get?_cons_zero, Nat.add_zero]
      by_cases h : text.get? idx = some c
      · rw [if_pos h, if_neg (fun hn => hn h.symm : ¬ some c ≠ text.get? idx)]
        omega
      · rw [if_neg h, if_pos (fun he => h he.symm : some c ≠ text.get? idx)]
        omega

lemma countErrors_eq_mistakesSpec (text typed : List Char) :
    countErrors text typed = mistakesSpec text typed := by
  rw [countErrors, countErrorsAux_eq, mistakesSpec, Finset.card_filter]
  refine Finset.sum_congr rfl fun i _ => ?_
  simp

lemma jsRound_zero : jsRound 0 = 0 := by norm_num [jsRound]

/-- C1: `currentStats` computes `charsTyped` as the length of the typed input,
`mistakes` as the number of indices where typed and reference characters
differ, `wpm = round((charsTyped / 5) / elapsedMinutes)` with elapsed minutes
floored at 0.001, and `accuracy = 100` when nothing is typed, otherwise
`round(((charsTyped - mistakes) / charsTyped) * 100)`; on empty input the
result is accuracy 100, wpm 0, mistakes 0. -/
theorem computeStats_spec (text typed : List Char) (startTime : Option ℚ)
    (fin : Bool) (now : ℚ) :
    (currentStats text typed startTime fin now).charsTyped = typed.length ∧
    (currentStats text typed startTime fin now).mistakes = mistakesSpec text typed ∧
    (currentStats text typed startTime fin now).wpm =
      jsRound (((typed.length : ℚ) / 5) /
        max ((now - startOr startTime now) / 60000) (1 / 1000)) ∧
    (currentStats text typed startTime fin now).accuracy =
      (if typed.length = 0 then 100 else
        jsRound ((((typed.length : ℚ) - (mistakesSpec text typed : ℚ)) /
          (typed.length : ℚ)) * 100)) ∧
    ((currentStats text [] startTime fin now).accuracy = 100 ∧
      (currentStats text [] startTime fin now).wpm = 0 ∧
      (currentStats text [] startTime fin now).mistakes = 0) := by
  refine ⟨rfl, countErrors_eq_mistakesSpec text typed, rfl, ?_, ?_, ?_, rfl⟩
  · rw [currentStats]
    simp only [countErrors_eq_mistakesSpec]
    rcases Nat.eq_zero_or_pos typed.length with h | h
    · simp [h]
    · have h' : typed.length ≠ 0 := Nat.pos_iff_ne_zero.mp h
      simp [h, h']
  · rw [currentStats]; simp
  · rw [currentStats]
    simp only [List.length_nil, Nat.cast_zero, zero_div, lt_irrefl, if_false]
    norm_num [jsRound_zero]

/-- A ten-character reference text, typed completely and correctly. -/
def demoText : List Char := List.replicate 10 'a'

/-- C2: the stats displayed after the session finishes keep using the live
clock.  With start timestamp 60000 ms and completion at 120000 ms (one minute
elapsed, 10 characters), the finished view shows wpm 2, but re-rendering one
minute later (now = 180000 ms) shows wpm 1: the elapsed time in the reported
wpm grows after completion, contradicting the spec. -/
theorem finished_stats_drift :
    (currentStats demoText demoText (some 60000) true 120000).wpm = 2 ∧
    (currentStats demoText demoText (some 60000) true 180000).wpm = 1 := by
  have he : countErrors demoText demoText = 0 := by decide
  constructor <;>
  · rw [currentStats]
    norm_num [startOr, demoText, jsRound]

/-- `KeyStats` record from `src/types.ts`. -/
structure KeyStats where
  char : Char
  total : ℕ
  errors : ℕ
  deriving Repr, DecidableEq

/-- The `Record<string, KeyStats>` heatmap, as a partial map from the
(single-character, lowercased) key to its stats. -/
def KeyStatsMap : Type := Char → Option KeyStats

/-- The `setKeyStats` updater inside `handleKeyDown` (`src/App.tsx`,
lines 114–132).  `expected` is `text[userInput.length]` (`none` at the end of
the text, in which case `charKey` is the falsy empty string and the update is
a no-op); `typed` is `e.key`; correctness is `e.key === expectedChar`,
compared before lowercasing. -/
def recordAttempt (prev : KeyStatsMap) (expected : Option Char) (typed : Char) :
    KeyStatsMap :=
  match expected with
  | none => prev
  | some e =>
      let charKey := e.toLower
      let current := (prev charKey).getD { char := charKey, total := 0, errors := 0 }
      fun k =>
        if k = charKey then
          some { current with
                 total := current.total + 1,
                 errors := if typed = e then current.errors else current.errors + 1 }
        else prev k

/-- The empty heatmap (`useState({})`). -/
def emptyKeyStats : KeyStatsMap := fun _ => none

/-- Folding a whole session's keystroke attempts (pairs of expected character
and typed character) over the empty heatmap. -/
def recordAll (attempts : List (Option Char × Char)) : KeyStatsMap :=
  attempts.foldl (fun m a => recordAttempt m a.1 a.2) emptyKeyStats

/-- Every entry of the map has `errors ≤ total`. -/
def HeatmapInv (m : KeyStatsMap) : Prop :=
  ∀ c s, m c = some s → s.errors ≤ s.total

lemma recordAttempt_inv {m : KeyStatsMap} (hm : HeatmapInv m)
    (expected : Option Char) (typed : Char) :
    HeatmapInv (recordAttempt m expected typed) := by
  cases expected with
  | none => exact hm
  | some e =>
      intro c s hs
      rw [recordAttempt] at hs
      simp only at hs
      by_cases hc : c = e.toLower
      · rw [if_pos hc] at hs
        cases hs
        have hcur : ((m e.toLower).getD
            { char := e.toLower, total := 0, errors := 0 }).errors ≤
            ((m e.toLower).getD { char := e.toLower, total := 0, errors := 0 }).total := by
          cases hme : m e.toLower with
          | none => simp [hme]
          | some s0 => simpa [hme] using hm _ s0 hme
        by_cases ht : typed = e <;> simp [ht] <;> omega
      · rw [if_neg hc] at hs
        exact hm c s hs

lemma foldl_recordAttempt_inv (attempts : List (Option Char × Char)) :
    ∀ (m : KeyStatsMap), HeatmapInv m →
      HeatmapInv (attempts.foldl (fun m a => recordAttempt m a.1 a.2) m) := by
  induction attempts with
  | nil => intro m hm; exact hm
  | cons a rest ih =>
      intro m hm
      exact ih _ (recordAttempt_inv hm a.1 a.2)

/-- C3: for any sequence of recorded keystroke attempts every tracked heatmap
entry has `errors ≤ total`; an attempt with no expected character is a no-op;
an attempt keyed by the lowercased expected character increments that entry's
total by one always and its errors by one exactly when the typed character
differs from the expected one; all other keys are untouched. -/
theorem heatmap_ok :
    (∀ (attempts : List (Option Char × Char)) (c : Char) (s : KeyStats),
        recordAll attempts c = some s → s.errors ≤ s.total) ∧
    (∀ (m : KeyStatsMap) (t : Char), recordAttempt m none t = m) ∧
    (∀ (m : KeyStatsMap) (e t : Char),
        recordAttempt m (some e) t e.toLower =
          some { char := ((m e.toLower).getD
                    { char := e.toLower, total := 0, errors := 0 }).char,
                 total := ((m e.toLower).getD
                    { char := e.toLower, total := 0, errors := 0 }).total + 1,
                 errors := if t = e then
                     ((m e.toLower).getD
                        { char := e.toLower, total := 0, errors := 0 }).errors
                   else
                     ((m e.toLower).getD
                        { char := e.toLower, total := 0, errors := 0 }).errors + 1 }) ∧
    (∀ (m : KeyStatsMap) (e t : Char) (k : Char), k ≠ e.toLower →
        recordAttempt m (some e) t k = m k) := by
  refine ⟨?_, ?_, ?_, ?_⟩
  · intro attempts c s hs
    exact foldl_recordAttempt_inv attempts emptyKeyStats
      (fun _ _ h => by simp [emptyKeyStats] at h) c s hs
  · intro m t; rfl
  · intro m e t
    rw [recordAttempt]
    simp
  · intro m e t k hk
    rw [recordAttempt]
    simp [hk]

/-- C3 witness: after the single attempt where `'A'` was expected but `'a'`
was typed, the entry at key `'a'` is `{char := 'a', total := 1, errors := 1}`
and satisfies `errors ≤ total`. -/
theorem heatmap_ok_witness :
    recordAll [(some 'A', 'a')] 'a' = some { char := 'a', total := 1, errors := 1 } ∧
    (1 : ℕ) ≤ 1 := by
  refine ⟨by decide, ?_⟩
  have h : recordAll [(some 'A', 'a')] 'a' =
      some { char := 'a', total := 1, errors := 1 } := by decide
  exact heatmap_ok.1 [(some 'A', 'a')] 'a'
    { char := 'a', total := 1, errors := 1 } h

/-- `k.errors / (k.total || 1)`: the sort key of `weakKeysDisplay`
(`src/unnamed/part_002`, lines 166–171); `0` is falsy, so a zero total is
replaced by `1`. -/
def errRateGuarded (k : KeyStats) : ℚ :=
  (k.errors : ℚ) / (if k.total = 0 then 1 else (k.total : ℚ))

/-- Descending order on guarded error rate: the JS comparator
`(b.errors / (b.total || 1)) - (a.errors / (a.total || 1))` sorts `a` before
`b` exactly when this relation holds. -/
def rGE (a b : KeyStats) : Prop := errRateGuarded b ≤ errRateGuarded a

instance : DecidableRel rGE :=
  fun a b => inferInstanceAs (Decidable (errRateGuarded b ≤ errRateGuarded a))

instance : IsTotal KeyStats rGE :=
  ⟨fun a b => le_total (errRateGuarded b) (errRateGuarded a)⟩

instance : IsTrans KeyStats rGE :=
  ⟨fun _ _ _ hab hbc => le_trans hbc hab⟩

/-- The weak-key derivation of `handleLessonGenerate` (`src/App.tsx`,
lines 85–96): `Object.values(keyStats).filter(k => (k.errors / k.total) > 0.1
&& k.total > 5).map(k => k.char)` — a filter in map-iteration order, with no
sorting. -/
def weakKeysLesson (stats : List KeyStats) : List Char :=
  (stats.filter fun k =>
      decide ((k.errors : ℚ) / (k.total : ℚ) > 1 / 10) && decide (5 < k.total)).map
    fun k => k.char

/-- `weakKeysDisplay` (`src/unnamed/part_002`, lines 166–171):
`Object.values(keyStats).sort(descending by guarded error rate).slice(0, 3)
.filter(k => k.errors > 0)`.  JS `Array.prototype.sort` is stable, which
insertion sort by `rGE` reproduces. -/
def weakKeysDisplay (stats : List KeyStats) : List KeyStats :=
  ((List.insertionSort rGE stats).take 3).filter fun k => decide (0 < k.errors)

/-- Modelled from the spec: `deriveWeakKeys(stats, totalThreshold,
errorRateThreshold)` as the spec words it — filtered to entries with
`total > totalThreshold` and error rate (guarded by `total || 1`) above
`errorRateThreshold`, sorted descending by that rate.  Written from the
spec's words, to be compared with `weakKeysLesson` / `weakKeysDisplay`. -/
def deriveWeakKeysSpec (stats : List KeyStats) (totalThreshold : ℕ)
    (errorRateThreshold : ℚ) : List Char :=
  (List.insertionSort rGE (stats.filter fun k =>
      decide (totalThreshold < k.total) &&
      decide (errorRateThreshold < errRateGuarded k))).map
    fun k => k.char

/-- A two-entry heatmap: `'a'` at error rate 2/10, `'b'` at 9/10, both with
more than five attempts. -/
def statsPair : List KeyStats :=
  [{ char := 'a', total := 10, errors := 2 }, { char := 'b', total := 10, errors := 9 }]

/-- C4 counterexample: the lesson generator's weak-key list is not sorted
descending by error rate.  On `statsPair` it returns `['a', 'b']` (map order),
while the spec's `deriveWeakKeys` with the code's thresholds would return
`['b', 'a']` (rate 9/10 before 2/10). -/
theorem weakKeysLesson_not_sorted :
    weakKeysLesson statsPair = ['a', 'b'] ∧
    deriveWeakKeysSpec statsPair 5 (1 / 10) = ['b', 'a'] ∧
    weakKeysLesson statsPair ≠ deriveWeakKeysSpec statsPair 5 (1 / 10) := by
  have h1 : weakKeysLesson statsPair = ['a', 'b'] := by
    norm_num [weakKeysLesson, statsPair, List.filter]
  have h2 : deriveWeakKeysSpec statsPair 5 (1 / 10) = ['b', 'a'] := by
    norm_num [deriveWeakKeysSpec, statsPair, List.filter, List.insertionSort,
      List.orderedInsert, rGE, errRateGuarded]
  exact ⟨h1, h2, by rw [h1, h2]; decide⟩

/-- C4 (amended): the lesson weak keys are the characters of the entries with
`total > 5` and `errors/total > 0.1`, kept in heatmap iteration order (a
sublist of the map's characters, not sorted), and never come from a
zero-total entry; the display's weak-key list is sorted descending by
`errors/(total||1)`, has at most three entries, only entries with
`errors > 0`, and — under the heatmap invariant `errors ≤ total` — never
contains a zero-total entry. -/
theorem weakKeys_amended (stats : List KeyStats) :
    (∀ c ∈ weakKeysLesson stats, ∃ k ∈ stats, k.char = c ∧ 5 < k.total ∧
        (1 : ℚ) / 10 < (k.errors : ℚ) / (k.total : ℚ) ∧ k.total ≠ 0) ∧
    List.Sublist (weakKeysLesson stats) (stats.map fun k => k.char) ∧
    List.Sorted rGE (weakKeysDisplay stats) ∧
    (weakKeysDisplay stats).length ≤ 3 ∧
    (∀ k ∈ weakKeysDisplay stats, 0 < k.errors) ∧
    ((∀ k ∈ stats, k.errors ≤ k.total) → ∀ k ∈ weakKeysDisplay stats, 0 < k.total) := by
  have hmemD : ∀ k ∈ weakKeysDisplay stats, k ∈ stats ∧ 0 < k.errors := by
    intro k hk
    rw [weakKeysDisplay] at hk
    have h1 := List.mem_filter.mp hk
    have h2 : k ∈ List.insertionSort rGE stats :=
      List.mem_of_mem_take h1.1
    refine ⟨(List.perm_insertionSort rGE stats).subset h2, ?_⟩
    simpa using h1.2
  refine ⟨?_, ?_, ?_, ?_, ?_, ?_⟩
  · intro c hc
    rw [weakKeysLesson] at hc
    obtain ⟨k, hk, hkc⟩ := List.mem_map.mp hc
    have h1 := List.mem_filter.mp hk
    have h2 : (1 : ℚ) / 10 < (k.errors : ℚ) / (k.total : ℚ) ∧ 5 < k.total := by
      have := h1.2
      simp only [Bool.and_eq_true, decide_eq_true_eq] at this
      exact ⟨this.1, this.2⟩
    exact ⟨k, h1.1, hkc, h2.2, h2.1, by omega⟩
  · exact List.Sublist.map _ (List.filter_sublist stats)
  · have hs : List.Sorted rGE (List.insertionSort rGE stats) :=
      List.sorted_insertionSort rGE stats
    have hsub : List.Sublist (weakKeysDisplay stats)
        (List.insertionSort rGE stats) :=
      (List.filter_sublist _).trans (List.take_sublist 3 _)
    exact List.Pairwise.sublist hsub hs
  · calc (weakKeysDisplay stats).length
        ≤ ((List.insertionSort rGE stats).take 3).length :=
          List.length_filter_le _ _
      _ ≤ 3 := List.length_take_le 3 _
  · intro k hk; exact (hmemD k hk).2
  · intro hinv k hk
    have h := hmemD k hk
    have := hinv k h.1
    omega

/-- C4 witness: on `statsPair` every lesson weak key comes from an entry with
more than five attempts, and the display list is sorted with at most three
all-positive-error entries. -/
theorem weakKeys_amended_witness :
    ∃ k ∈ statsPair, k.char = 'a' ∧ 5 < k.total ∧
      (1 : ℚ) / 10 < (k.errors : ℚ) / (k.total : ℚ) ∧ k.total ≠ 0 := by
  have h1 : weakKeysLesson statsPair = ['a', 'b'] := by
    norm_num [weakKeysLesson, statsPair, List.filter]
  have ha : 'a' ∈ weakKeysLesson statsPair := by rw [h1]; decide
  exact (weakKeys_amended statsPair).1 'a' ha

/-- `WordEntity` from `src/types.ts`. -/
structure WordEntity where
  id : ℕ
  text : List Char
  x : ℚ
  y : ℚ
  speed : ℚ
  typed : List Char
  deriving Repr, DecidableEq

/-- The state of the falling-word game (`src/components/RainGame.tsx`,
kept in `src/unnamed/part_000`): active words, the shared input buffer,
score, lives (start 3), level (start 1), last spawn time and current spawn
interval (start 2000 ms). -/
structure RainState where
  words : List WordEntity
  currentInput : List Char
  score : ℕ
  lives : ℤ
  level : ℕ
  lastSpawnTime : ℚ
  spawnRate : ℚ
  deriving Repr, DecidableEq

/-- The `forEach` inside `updateGame`'s `setWords`: each word advances by its
speed; words whose next position exceeds 100 are dropped and counted in
`livesLost`. -/
def advanceWords : List WordEntity → List WordEntity × ℕ
  | [] => ([], 0)
  | w :: rest =>
      let r := advanceWords rest
      if 100 < w.y + w.speed then (r.1, r.2 + 1)
      else ({ w with y := w.y + w.speed } :: r.1, r.2)

/-- `if (spawnRate.current > 800) spawnRate.current -= 10` — the per-spawn
difficulty ramp. -/
def spawnStep (r : ℚ) : ℚ := if 800 < r then r - 10 else r

/-- One animation tick of `updateGame` (`src/unnamed/part_000`, lines 49–88).
Returns the next state and `some score` when the game-over callback
`onGameEnd(score)` fires this tick.  The spawned word itself arrives
asynchronously (a later `setWords`), so the synchronous tick only updates the
spawn timer and interval. -/
def updateGame (s : RainState) (time : ℚ) : RainState × Option ℕ :=
  if s.lives ≤ 0 then (s, none)
  else
    let doSpawn := s.spawnRate < time - s.lastSpawnTime
    let lastSpawnTime' := if doSpawn then time else s.lastSpawnTime
    let spawnRate' := if doSpawn then spawnStep s.spawnRate else s.spawnRate
    let adv := advanceWords s.words
    let lives' := if 0 < adv.2 then s.lives - (adv.2 : ℤ) else s.lives
    let report := if 0 < adv.2 ∧ s.lives - (adv.2 : ℤ) ≤ 0 then some s.score else none
    ({ s with
        words := adv.1
        lives := lives'
        lastSpawnTime := lastSpawnTime'
        spawnRate := spawnRate' }, report)

lemma advanceWords_eq (ws : List WordEntity) :
    advanceWords ws =
      ((ws.filter fun w => decide (w.y + w.speed ≤ 100)).map
          fun w => { w with y := w.y + w.speed },
        ws.countP fun w => decide (100 < w.y + w.speed)) := by
  induction ws with
  | nil => simp [advanceWords]
  | cons w rest ih =>
      rw [advanceWords, ih]
      by_cases h : 100 < w.y + w.speed
      · simp [h, List.filter_cons, List.countP_cons, not_le.mpr h]
      · simp [h, List.filter_cons, List.countP_cons, not_lt.mp h]

/-- A run of consecutive animation ticks, counting how many times the
game-over callback fires. -/
def runTicks : RainState → List ℚ → RainState × ℕ
  | s, [] => (s, 0)
  | s, t :: ts =>
      let step := updateGame s t
      let rest := runTicks step.1 ts
      (rest.1, (if step.2.isSome then 1 else 0) + rest.2)

lemma updateGame_dead {s : RainState} (t : ℚ) (h : s.lives ≤ 0) :
    updateGame s t = (s, none) := by
  rw [updateGame, if_pos h]

lemma updateGame_report_dead {s : RainState} {t : ℚ} {r : ℕ}
    (h : (updateGame s t).2 = some r) : (updateGame s t).1.lives ≤ 0 := by
  by_cases hl : s.lives ≤ 0
  · rw [updateGame_dead t hl] at h
    exact absurd h (by simp)
  · rw [updateGame] at h ⊢
    rw [if_neg hl] at h ⊢
    simp only at h ⊢
    by_cases hc : 0 < (advanceWords s.words).2 ∧
        s.lives - ((advanceWords s.words).2 : ℤ) ≤ 0
    · simp [hc.1, hc.2]
    · rw [if_neg hc] at h
      exact absurd h (by simp)

lemma runTicks_dead {s : RainState} (ts : List ℚ) (h : s.lives ≤ 0) :
    runTicks s ts = (s, 0) := by
  induction ts with
  | nil => rfl
  | cons t rest ih =>
      rw [runTicks, updateGame_dead t h]
      simp [ih]

lemma runTicks_reports_le_one : ∀ (ts : List ℚ) (s : RainState),
    (runTicks s ts).2 ≤ 1 := by
  intro ts
  induction ts with
  | nil => intro s; simp [runTicks]
  | cons t rest ih =>
      intro s
      rw [runTicks]
      cases hr : (updateGame s t).2 with
      | none => simpa [hr] using ih (updateGame s t).1
      | some r =>
          have hdead : (updateGame s t).1.lives ≤ 0 := updateGame_report_dead hr
          rw [runTicks_dead rest hdead]
          simp [hr]

/-- C5: on a tick from a live state, every active word's position increases by
its fall speed and exactly the words whose new position exceeds 100 are
removed; lives decrease by exactly the count of removed words (and are
unchanged when none fall); the score is untouched by the tick; the game-end
callback fires, carrying the score accumulated up to that tick, exactly when
the new lives are ≤ 0; a dead state ignores ticks entirely; and over any
sequence of ticks the callback fires at most once. -/
theorem rain_tick_spec (s : RainState) (t : ℚ) (h : 0 < s.lives) :
    (updateGame s t).1.words =
      ((s.words.filter fun w => decide (w.y + w.speed ≤ 100)).map
        fun w => { w with y := w.y + w.speed }) ∧
    (updateGame s t).1.lives =
      s.lives - (s.words.countP fun w => decide (100 < w.y + w.speed)) ∧
    (updateGame s t).1.score = s.score ∧
    ((updateGame s t).1.lives ≤ 0 → (updateGame s t).2 = some s.score) ∧
    (0 < (updateGame s t).1.lives → (updateGame s t).2 = none) ∧
    (∀ (s' : RainState) (t' : ℚ), s'.lives ≤ 0 → updateGame s' t' = (s', none)) ∧
    (∀ (s' : RainState) (ts : List ℚ), (runTicks s' ts).2 ≤ 1) := by
  have hl : ¬ s.lives ≤ 0 := not_le.mpr h
  have hadv := advanceWords_eq s.words
  refine ⟨?_, ?_, ?_, ?_, ?_, fun s' t' h' => updateGame_dead t' h',
    fun s' ts => runTicks_reports_le_one ts s'⟩
  · rw [updateGame, if_neg hl]
    simp [hadv]
  · rw [updateGame, if_neg hl]
    simp only [hadv]
    by_cases hc : 0 < s.words.countP fun w => decide (100 < w.y + w.speed)
    · simp [hc]
    · simp [hc]
      omega
  · rw [updateGame, if_neg hl]
  · intro hd
    rw [updateGame, if_neg hl] at hd ⊢
    simp only [hadv] at hd ⊢
    by_cases hc : 0 < s.words.countP fun w => decide (100 < w.y + w.speed)
    · rw [if_pos hc] at hd
      rw [if_pos ⟨hc, hd⟩]
    · rw [if_neg hc] at hd
      omega
  · intro hd
    rw [updateGame, if_neg hl] at hd ⊢
    simp only [hadv] at hd ⊢
    by_cases hc : 0 < s.words.countP fun w => decide (100 < w.y + w.speed)
    · rw [if_pos hc] at hd
      rw [if_neg ?_]
      intro hcc
      omega
    · rw [if_neg ?_]
      intro hcc
      exact hc hcc.1

/-- One word at height 99 falling at speed 2, one life left, score 42. -/
def demoRain : RainState :=
  { words := [{ id := 0, text := ['c','o','d','e'], x := 50, y := 99, speed := 2,
                typed := [] }],
    currentInput := [], score := 42, lives := 1, level := 1,
    lastSpawnTime := 0, spawnRate := 2000 }

/-- C5 witness: ticking `demoRain` drops its only word past 100, lives reach
0, and the game-over callback reports the accumulated score 42. -/
theorem rain_tick_spec_witness :
    0 < demoRain.lives ∧ (updateGame demoRain 0).2 = some 42 := by
  have h : 0 < demoRain.lives := by decide
  refine ⟨h, (rain_tick_spec demoRain 0 h).2.2.2.1 ?_⟩
  have hw := (rain_tick_spec demoRain 0 h).2.1
  rw [hw]
  norm_num [demoRain]

/-- The spawn interval after `n` spawns, starting from 2000 ms. -/
def spawnRateAfter : ℕ → ℚ
  | 0 => 2000
  | n + 1 => spawnStep (spawnRateAfter n)

lemma spawnRateAfter_eq (n : ℕ) :
    spawnRateAfter n = max 800 (2000 - 10 * (n : ℚ)) := by
  induction n with
  | zero => rw [spawnRateAfter]; norm_num
  | succ n ih =>
      rw [spawnRateAfter, ih, spawnStep]
      rcases le_or_lt (2000 - 10 * (n : ℚ)) 800 with h | h
      · rw [max_eq_left h, if_neg (by norm_num)]
        have h2 : (2000 : ℚ) - 10 * ((n : ℚ) + 1) ≤ 800 := by linarith
        rw [eq_comm, max_eq_left]
        push_cast
        linarith
      · rw [max_eq_right h.le, if_pos (by linarith)]
        have hn : (n : ℚ) < 120 := by linarith
        have hn' : (n : ℚ) + 1 ≤ 120 := by
          have : n < 120 := by exact_mod_cast hn
          have : n + 1 ≤ 120 := by omega
          exact_mod_cast this
        rw [eq_comm, max_eq_right]
        · push_cast
          ring
        · push_cast
          linarith

lemma runTicks_spawnRate (ts : List ℚ) : ∀ (s : RainState) (n : ℕ),
    s.spawnRate = spawnRateAfter n →
    ∃ m, (runTicks s ts).1.spawnRate = spawnRateAfter m := by
  induction ts with
  | nil => intro s n hn; exact ⟨n, hn⟩
  | cons t rest ih =>
      intro s n hn
      rw [runTicks]
      simp only
      by_cases hl : s.lives ≤ 0
      · rw [updateGame_dead t hl]
        exact ih s n hn
      · have hstep : (updateGame s t).1.spawnRate = spawnRateAfter n ∨
            (updateGame s t).1.spawnRate = spawnRateAfter (n + 1) := by
          rw [updateGame, if_neg hl]
          by_cases hd : s.spawnRate < t - s.lastSpawnTime
          · right
            simp only [if_pos hd]
            rw [spawnRateAfter, hn]
          · left
            simp only [if_neg hd]
            exact hn
        rcases hstep with h | h
        · exact ih _ n h
        · exact ih _ (n + 1) h

/-- C7: the spawn interval, starting at 2000 and decremented by 10 per spawn
while above 800, is always at least 800; after 130 spawns (and any count
thereafter) it is exactly 800; each game tick leaves it unchanged or applies
one spawn decrement; and along any sequence of ticks from a state whose
interval is a reachable spawn value the interval stays at least 800. -/
theorem spawnRate_floor :
    (∀ n, 800 ≤ spawnRateAfter n) ∧
    spawnRateAfter 130 = 800 ∧
    (∀ n, 130 ≤ n → spawnRateAfter n = 800) ∧
    (∀ (s : RainState) (t : ℚ),
        (updateGame s t).1.spawnRate = s.spawnRate ∨
        (updateGame s t).1.spawnRate = spawnStep s.spawnRate) ∧
    (∀ (s : RainState) (ts : List ℚ) (n : ℕ), s.spawnRate = spawnRateAfter n →
        800 ≤ (runTicks s ts).1.spawnRate) := by
  have h130 : ∀ n, 130 ≤ n → spawnRateAfter n = 800 := by
    intro n hn
    rw [spawnRateAfter_eq, max_eq_left]
    have hq : (130 : ℚ) ≤ (n : ℚ) := by exact_mod_cast hn
    linarith
  refine ⟨?_, h130 130 le_rfl, h130, ?_, ?_⟩
  · intro n
    rw [spawnRateAfter_eq]
    exact le_max_left _ _
  · intro s t
    by_cases hl : s.lives ≤ 0
    · left; rw [updateGame_dead t hl]
    · rw [updateGame, if_neg hl]
      by_cases hd : s.spawnRate < t - s.lastSpawnTime
      · right; simp [hd]
      · left; simp [hd]
  · intro s ts n hn
    obtain ⟨m, hm⟩ := runTicks_spawnRate ts s n hn
    rw [hm, spawnRateAfter_eq]
    exact le_max_left _ _

/-- C7 witness: after 135 spawns the interval is exactly 800, and after 60
spawns it is still at least 800. -/
theorem spawnRate_floor_witness :
    spawnRateAfter 135 = 800 ∧ 800 ≤ spawnRateAfter 60 := by
  exact ⟨spawnRate_floor.2.2.1 135 (by norm_num), spawnRate_floor.1 60⟩

/-- `prevWords.findIndex(w => w.text.startsWith(currentInput + char))` plus
the removal `prevWords.filter((_, i) => i !== targetIndex)` from the game's
`handleKeyDown`: returns the first word whose text starts with `ext`,
together with the remaining words in order. -/
def matchWord : List WordEntity → List Char → Option (WordEntity × List WordEntity)
  | [], _ => none
  | w :: rest, ext =>
      if ext.isPrefixOf w.text then some (w, rest)
      else (matchWord rest ext).map fun p => (p.1, w :: p.2)

/-- A printable-character keystroke in the falling-word game
(`src/unnamed/part_000`, lines 91–135).  Note the level check
`if (score > 0 && score % 100 === 0)` reads the closure's stale `score`,
i.e. the score from before the completed word was added. -/
def handleGameKey (s : RainState) (c : Char) : RainState :=
  if s.lives ≤ 0 then s
  else
    let ext := s.currentInput ++ [c]
    match matchWord s.words ext with
    | none => { s with currentInput := [] }
    | some p =>
        if p.1.text = ext then
          { s with
              words := p.2
              score := s.score + p.1.text.length * 10
              currentInput := []
              level := if 0 < s.score ∧ s.score % 100 = 0 then s.level + 1
                else s.level }
        else { s with currentInput := ext }

/-- A Backspace keystroke in the falling-word game: drops the last character
of the input buffer. -/
def handleGameBackspace (s : RainState) : RainState :=
  if s.lives ≤ 0 then s else { s with currentInput := s.currentInput.dropLast }

lemma matchWord_spec : ∀ (ws : List WordEntity) (ext : List Char)
    (w : WordEntity) (others : List WordEntity),
    matchWord ws ext = some (w, others) →
    ∃ i, ws.get? i = some w ∧ others = ws.eraseIdx i ∧
      ext.isPrefixOf w.text = true ∧
      ∀ j wj, j < i → ws.get? j = some wj → ext.isPrefixOf wj.text = false := by
  intro ws
  induction ws with
  | nil => intro ext w others h; exact absurd h (by simp [matchWord])
  | cons w0 rest ih =>
      intro ext w others h
      rw [matchWord] at h
      by_cases hp : ext.isPrefixOf w0.text
      · rw [if_pos hp] at h
        have h' := Option.some.inj h
        have hw : w0 = w := congrArg Prod.fst h'
        have ho : rest = others := congrArg Prod.snd h'
        refine ⟨0, ?_, ?_, ?_, ?_⟩
        · rw [← hw]; rfl
        · rw [← ho]; rfl
        · rw [← hw]; exact hp
        · intro j wj hj; omega
      · rw [if_neg hp] at h
        cases hm : matchWord rest ext with
        | none => rw [hm] at h; exact absurd h (by simp)
        | some p =>
            rw [hm, Option.map_some'] at h
            have h' := Option.some.inj h
            have hw : p.1 = w := congrArg Prod.fst h'
            have ho : w0 :: p.2 = others := congrArg Prod.snd h'
            obtain ⟨i, hi1, hi2, hi3, hi4⟩ := ih ext p.1 p.2 (by rw [hm])
            refine ⟨i + 1, ?_, ?_, ?_, ?_⟩
            · rw [List.get?_cons_succ, hi1, hw]
            · rw [← ho, List.eraseIdx_cons_succ, hi2]
            · rw [← hw]; exact hi3
            · intro j wj hj hg
              cases j with
              | zero =>
                  have hg' : w0 = wj := Option.some.inj hg
                  rw [← hg']
                  exact Bool.eq_false_iff.mpr hp
              | succ j' =>
                  rw [List.get?_cons_succ] at hg
                  exact hi4 j' wj (by omega) hg

/-- The word "rocket", falling. -/
def rocketWord : WordEntity :=
  { id := 0, text := ['r','o','c','k','e','t'], x := 50, y := 10, speed := 1,
    typed := [] }

/-- Score 60, "rocke" already typed towards the word "rocket". -/
def crossState : RainState :=
  { words := [rocketWord], currentInput := ['r','o','c','k','e'], score := 60,
    lives := 3, level := 1, lastSpawnTime := 0, spawnRate := 2000 }

/-- C6 counterexample: completing "rocket" from score 60 takes the score to
120 — crossing the 100-point mark — yet the level stays 1, because the code
tests the pre-completion score (`score > 0 && score % 100 === 0`) instead of
the points crossed. -/
theorem level_not_incremented_on_crossing :
    (handleGameKey crossState 't').score = 120 ∧
    crossState.score < 100 ∧ 100 ≤ (handleGameKey crossState 't').score ∧
    (handleGameKey crossState 't').level = 1 ∧
    crossState.level = 1 := by
  refine ⟨?_, by decide, ?_, ?_, by decide⟩ <;>
    simp [handleGameKey, crossState, rocketWord, matchWord, List.isPrefixOf]

/-- C6 (amended): when a keystroke extends the input buffer to exactly the
full text of the *first* active word whose text starts with the extended
buffer, that word is removed (the earlier words were not prefix-matched),
the score increases by `length(word) * 10`, the buffer resets to empty, and
the level increments by one exactly when the score *before* this completion
was a positive multiple of 100. -/
theorem gameKey_complete_amended (s : RainState) (c : Char) (w : WordEntity)
    (others : List WordEntity)
    (h1 : 0 < s.lives)
    (h2 : matchWord s.words (s.currentInput ++ [c]) = some (w, others))
    (h3 : w.text = s.currentInput ++ [c]) :
    (handleGameKey s c).words = others ∧
    (handleGameKey s c).score = s.score + w.text.length * 10 ∧
    (handleGameKey s c).currentInput = [] ∧
    (handleGameKey s c).level =
      (if 0 < s.score ∧ s.score % 100 = 0 then s.level + 1 else s.level) ∧
    ∃ i, s.words.get? i = some w ∧ others = s.words.eraseIdx i ∧
      ∀ j wj, j < i → s.words.get? j = some wj →
        (s.currentInput ++ [c]).isPrefixOf wj.text = false := by
  have hl : ¬ s.lives ≤ 0 := not_le.mpr h1
  have hkey : handleGameKey s c =
      { s with
          words := others
          score := s.score + w.text.length * 10
          currentInput := []
          level := if 0 < s.score ∧ s.score % 100 = 0 then s.level + 1
            else s.level } := by
    rw [handleGameKey, if_neg hl]
    simp [h2, h3]
  obtain ⟨i, hi1, hi2, _, hi4⟩ := matchWord_spec s.words _ w others h2
  exact ⟨by rw [hkey], by rw [hkey], by rw [hkey], by rw [hkey],
    ⟨i, hi1, hi2, hi4⟩⟩

/-- Fresh score, "rocke" typed towards "rocket". -/
def freshRocketState : RainState :=
  { words := [rocketWord], currentInput := ['r','o','c','k','e'], score := 0,
    lives := 3, level := 1, lastSpawnTime := 0, spawnRate := 2000 }

/-- C6 witness: fully typing "rocket" increases the score by exactly 60
(6 × 10), removes the word, and resets the input buffer. -/
theorem gameKey_complete_amended_witness :
    (handleGameKey freshRocketState 't').score = 60 ∧
    (handleGameKey freshRocketState 't').words = [] ∧
    (handleGameKey freshRocketState 't').currentInput = [] := by
  have h := gameKey_complete_amended freshRocketState 't' rocketWord []
    (by decide) rfl rfl
  refine ⟨?_, h.1, h.2.2.1⟩
  rw [h.2.1]
  rfl

/-- `GameMode` enum from `src/types.ts`. -/
inductive GameMode where
  | LESSON
  | ZEN
  | GAME_RAIN
  | ANALYTICS
  deriving Repr, DecidableEq

/-- `DEFAULT_TEXT` from `src/App.tsx`. -/
def DEFAULT_TEXT : List Char :=
  "Welcome to TypeNeon. Start typing to begin your journey. Speed and accuracy will follow practice.".toList

/-- The session-relevant `useState` fields of the `App` component
(`src/App.tsx`); theme and the last game score are presentation-only and
elided. -/
structure AppState where
  mode : GameMode
  text : List Char
  userInput : List Char
  startTime : Option ℚ
  isFinished : Bool
  keyStats : KeyStatsMap
  loading : Bool
  aiAdvice : String

/-- `resetSession` (`src/App.tsx`, lines 78–83): clears the typed input, the
start timestamp, the finished flag and the advice text — and nothing else. -/
def resetSession (s : AppState) : AppState :=
  { s with
      userInput := []
      startTime := none
      isFinished := false
      aiAdvice := "" }

/-- `handleModeChange` (`src/App.tsx`, lines 64–76): set the mode, reset the
session, then fetch new text for Zen mode (`zenText` is the awaited provider
result) or restore the default text for Lesson mode. -/
def handleModeChange (s : AppState) (newMode : GameMode) (zenText : List Char) :
    AppState :=
  let s1 := resetSession { s with mode := newMode }
  match newMode with
  | GameMode.ZEN => { s1 with loading := false, text := zenText }
  | GameMode.LESSON => { s1 with text := DEFAULT_TEXT }
  | _ => s1

/-- `handleLessonGenerate` (`src/App.tsx`, lines 85–96): set the freshly
generated text (`newText` is the awaited provider result), reset the session,
clear the loading flag. -/
def handleLessonGenerate (s : AppState) (newText : List Char) : AppState :=
  { resetSession { s with text := newText } with loading := false }

/-- A mid-session app state whose heatmap has one tracked entry at key `'a'`
(one attempt, one error). -/
def sessionState : AppState :=
  { mode := GameMode.LESSON, text := DEFAULT_TEXT, userInput := ['a'],
    startTime := some 1000, isFinished := true,
    keyStats := recordAll [(some 'a', 'b')],
    loading := false, aiAdvice := "tip" }

/-- C8 counterexample: resetting a session (directly, via lesson generation,
or via a mode switch) clears input, start time, finished flag and advice —
but the per-key heatmap entry survives every one of them, so key stats are
not reset when a new session or lesson starts. -/
theorem heatmap_survives_reset :
    (resetSession sessionState).keyStats 'a' =
      some { char := 'a', total := 1, errors := 1 } ∧
    (resetSession sessionState).userInput = [] ∧
    (resetSession sessionState).startTime = none ∧
    (resetSession sessionState).isFinished = false ∧
    (resetSession sessionState).aiAdvice = "" ∧
    (handleLessonGenerate sessionState DEFAULT_TEXT).keyStats 'a' =
      some { char := 'a', total := 1, errors := 1 } ∧
    (handleModeChange sessionState GameMode.ZEN DEFAULT_TEXT).keyStats 'a' =
      some { char := 'a', total := 1, errors := 1 } := by
  exact ⟨by decide, rfl, rfl, rfl, rfl, by decide, by decide⟩

/-- C8 (amended): an explicit reset, a lesson generation and a mode switch
clear the typed input, start timestamp, finished flag and advice text, but
all three preserve the per-key heatmap unchanged: key stats persist across
session boundaries (until a page reload). -/
theorem reset_amended (s : AppState) (m : GameMode) (zt nt : List Char) :
    (resetSession s).userInput = [] ∧ (resetSession s).startTime = none ∧
    (resetSession s).isFinished = false ∧ (resetSession s).aiAdvice = "" ∧
    (resetSession s).keyStats = s.keyStats ∧
    (resetSession s).mode = s.mode ∧ (resetSession s).text = s.text ∧
    (handleModeChange s m zt).keyStats = s.keyStats ∧
    (handleModeChange s m zt).userInput = [] ∧
    (handleModeChange s m zt).startTime = none ∧
    (handleModeChange s m zt).isFinished = false ∧
    (handleModeChange s m zt).aiAdvice = "" ∧
    (handleModeChange s m zt).mode = m ∧
    (handleLessonGenerate s nt).keyStats = s.keyStats ∧
    (handleLessonGenerate s nt).text = nt ∧
    (handleLessonGenerate s nt).userInput = [] ∧
    (handleLessonGenerate s nt).startTime = none := by
  cases m <;> simp [resetSession, handleModeChange, handleLessonGenerate]

/-- `"The quick brown fox jumps over the lazy dog."` — the lesson-content
fallback in `src/services/geminiService.ts`. -/
def FALLBACK_PANGRAM : List Char :=
  "The quick brown fox jumps over the lazy dog.".toList

/-- The advice returned when the provider responds with empty text. -/
def ADVICE_EMPTY_FALLBACK : List Char :=
  "Keep practicing! Accuracy is key to speed.".toList

/-- The advice returned when the provider call throws. -/
def ADVICE_ERROR_FALLBACK : List Char :=
  "Great job! Keep typing every day.".toList

/-- The fixed ten-word list returned when the word-list call throws. -/
def FALLBACK_WORDS : List (List Char) :=
  ["space".toList, "galaxy".toList, "rocket".toList, "planet".toList,
   "star".toList, "comet".toList, "orbit".toList, "laser".toList,
   "alien".toList, "moon".toList]

/-- `response.text` with `undefined` collapsed to the empty string (the
`?.`/`|| ""` steps in the service functions). -/
def textOrEmpty : Option (List Char) → List Char
  | none => []
  | some t => t

/-- JavaScript `String.prototype.trim`: strip leading and trailing
whitespace. -/
def jsTrim (s : List Char) : List Char :=
  ((s.dropWhile fun c => c.isWhitespace).reverse.dropWhile
    fun c => c.isWhitespace).reverse

def splitOnWsAux : List Char → List Char → List (List Char)
  | [], acc => [acc.reverse]
  | c :: rest, acc =>
      if c.isWhitespace then acc.reverse :: splitOnWsAux rest []
      else splitOnWsAux rest (c :: acc)

/-- `text.split(/\s+/)`: split at whitespace.  Splitting at every whitespace
character (rather than at runs, as the regex does) yields extra empty tokens,
which the subsequent nonempty filter removes, so the filtered results
agree. -/
def splitOnWs (s : List Char) : List (List Char) := splitOnWsAux s []

/-- `generateLessonContent` (`src/services/geminiService.ts`, lines 7–35):
the provider call either throws (`Except.error`) or returns a response whose
`.text` may be absent; failure and blank text both fall back to the fixed
pangram.  The prompt construction from focus keys, difficulty and topic does
not affect the returned value and is elided. -/
def generateLessonContent (resp : Except Unit (Option (List Char))) : List Char :=
  match resp with
  | Except.error _ => FALLBACK_PANGRAM
  | Except.ok t =>
      let s := jsTrim (textOrEmpty t)
      if s = [] then FALLBACK_PANGRAM else s

/-- `generateTypingAdvice` (`src/services/geminiService.ts`, lines 37–61):
note the thrown-call fallback and the blank-text fallback are two different
strings. -/
def generateTypingAdvice (resp : Except Unit (Option (List Char))) : List Char :=
  match resp with
  | Except.error _ => ADVICE_ERROR_FALLBACK
  | Except.ok t =>
      let s := jsTrim (textOrEmpty t)
      if s = [] then ADVICE_EMPTY_FALLBACK else s

/-- `generateGameWords` (`src/services/geminiService.ts`, lines 63–74): on a
response, split on whitespace, drop empty tokens, truncate to `count`; only a
thrown call yields the fixed ten-word list. -/
def generateGameWords (count : ℕ) (resp : Except Unit (Option (List Char))) :
    List (List Char) :=
  match resp with
  | Except.error _ => FALLBACK_WORDS
  | Except.ok t =>
      ((splitOnWs (textOrEmpty t)).filter fun w => decide (0 < w.length)).take count

/-- C9 counterexample: an *empty* provider response is not treated like a
failure.  `generateGameWords` returns the empty list instead of the fixed
ten-word fallback, and the advice operation returns a different fixed string
for an empty response than for a thrown call. -/
theorem empty_response_not_fallback :
    generateGameWords 20 (Except.ok (some [])) = [] ∧
    FALLBACK_WORDS.length = 10 ∧
    generateGameWords 20 (Except.ok (some [])) ≠ FALLBACK_WORDS ∧
    generateTypingAdvice (Except.ok (some [])) = ADVICE_EMPTY_FALLBACK ∧
    generateTypingAdvice (Except.error ()) = ADVICE_ERROR_FALLBACK ∧
    ADVICE_EMPTY_FALLBACK ≠ ADVICE_ERROR_FALLBACK := by
  exact ⟨rfl, rfl, by decide, rfl, rfl, by decide⟩

/-- C9 (amended): no service call ever propagates an error.  A thrown
provider call yields the fixed pangram / the fixed error-encouragement
string / the fixed ten-word list; an absent or blank response text yields the
pangram for lesson content, the (different) empty-response encouragement
string for advice, and the empty word list for game words. -/
theorem provider_fallbacks :
    (∀ e, generateLessonContent (Except.error e) = FALLBACK_PANGRAM) ∧
    generateLessonContent (Except.ok none) = FALLBACK_PANGRAM ∧
    (∀ t, jsTrim t = [] → generateLessonContent (Except.ok (some t)) = FALLBACK_PANGRAM) ∧
    (∀ t, jsTrim t ≠ [] → generateLessonContent (Except.ok (some t)) = jsTrim t) ∧
    (∀ e, generateTypingAdvice (Except.error e) = ADVICE_ERROR_FALLBACK) ∧
    generateTypingAdvice (Except.ok none) = ADVICE_EMPTY_FALLBACK ∧
    (∀ t, jsTrim t = [] → generateTypingAdvice (Except.ok (some t)) = ADVICE_EMPTY_FALLBACK) ∧
    (∀ count e, generateGameWords count (Except.error e) = FALLBACK_WORDS) ∧
    (∀ count, generateGameWords count (Except.ok none) = []) := by
  refine ⟨fun e => rfl, rfl, ?_, ?_, fun e => rfl, rfl, ?_, fun count e => rfl, ?_⟩
  · intro t ht
    simp [generateLessonContent, textOrEmpty, ht]
  · intro t ht
    simp [generateLessonContent, textOrEmpty, ht]
  · intro t ht
    simp [generateTypingAdvice, textOrEmpty, ht]
  · intro count
    show (((splitOnWs []).filter fun w => decide (0 < w.length)).take count) = []
    rw [splitOnWs, splitOnWsAux]
    simp

/-- C9 witness: a whitespace-only response falls back to the pangram, and a
failed word-list call at count 5 still returns the full fallback list. -/
theorem provider_fallbacks_witness :
    jsTrim " ".toList = [] ∧
    generateLessonContent (Except.ok (some " ".toList)) = FALLBACK_PANGRAM ∧
    generateGameWords 5 (Except.error ()) = FALLBACK_WORDS := by
  exact ⟨by decide, provider_fallbacks.2.2.1 " ".toList (by decide),
    provider_fallbacks.2.2.2.2.2.2.2.1 5 ()⟩

/-- C10 counterexample: `generateGameWords 1` on a failed call returns the
full ten-word fallback list, exceeding the requested count. -/
theorem gameWords_ignores_count :
    (generateGameWords 1 (Except.error ())).length = 10 ∧
    ¬ (generateGameWords 1 (Except.error ())).length ≤ 1 := by
  exact ⟨rfl, by decide⟩

/-- C10 (amended): every word `generateGameWords` returns is non-empty; when
the provider responds (even malformed or empty) the result has at most
`count` words; but when the call throws, the fixed ten-word fallback is
returned regardless of `count`. -/
theorem gameWords_amended (count : ℕ) (resp : Except Unit (Option (List Char))) :
    (∀ w ∈ generateGameWords count resp, w ≠ []) ∧
    (∀ t, resp = Except.ok t → (generateGameWords count resp).length ≤ count) ∧
    (∀ e, resp = Except.error e → generateGameWords count resp = FALLBACK_WORDS) := by
  refine ⟨?_, ?_, ?_⟩
  · intro w hw
    cases resp with
    | error e =>
        have hall : ∀ x ∈ FALLBACK_WORDS, x ≠ ([] : List Char) := by decide
        exact hall w hw
    | ok t =>
        have h1 : w ∈ (splitOnWs (textOrEmpty t)).filter
            fun w => decide (0 < w.length) :=
          List.mem_of_mem_take hw
        have h2 := (List.mem_filter.mp h1).2
        simp only [decide_eq_true_eq] at h2
        exact List.ne_nil_of_length_pos h2
  · intro t ht
    rw [ht]
    exact List.length_take_le count _
  · intro e he
    rw [he]
    rfl

/-- C10 witness: with a real three-word response and count 2, at most two
words come back. -/
theorem gameWords_amended_witness :
    (generateGameWords 2 (Except.ok (some "alpha beta gamma".toList))).length ≤ 2 := by
  exact (gameWords_amended 2 (Except.ok (some "alpha beta gamma".toList))).2.1
    (some "alpha beta gamma".toList) rfl
